import Mathlib

/-!
Verification of the onchg change-consistency linter.

The definitions below are a shallow embedding of the linter's core modules:

* the diff model (`Line`, `Hunk`, the cli `changed_lines` construction),
* the block model (`OnChangeBlock`, `ThenChange`, `ThenChangeTarget`),
* the per-file marker scanner (`parseInternal` with its helpers,
  from `File::parse_internal` in src/file.rs: the regex scan yields an
  ordered list of marker matches with line numbers, embedded here as the
  `MarkerEvent` list; the stack/name/target handling is translated
  line-for-line),
* target path resolution (`parseThenTargetFilePath`, from
  `File::parse_then_target_file_path`),
* graph validation (`Parser.validate`, from `Parser::validate`), and
* change validation (`Parser.validateChangedFilesAndBlocks`, from
  `Parser::validate_changed_files_and_blocks`).

Rust `Vec` used as a stack (push/pop at the back) is modelled as a Lean
`List` with the top at the head.  File paths are modelled as lists of
Rust `std::path` components; the filesystem existence test is an oracle
function passed in as a parameter.
-/

namespace Onchg

/-! Structural models of the Rust `str` primitives the linter uses
(`split`, `trim`, `contains`, `starts_with`, byte `drop`), written as
plain recursion on the character list so every definition below is
evaluable. -/

/-- Rust `str::split(c)`: splitting the empty string yields one empty
piece, and every separator starts a new piece. -/
def splitOnChar (c : Char) : List Char → List (List Char)
  | [] => [[]]
  | x :: xs =>
    if x = c then [] :: splitOnChar c xs
    else
      match splitOnChar c xs with
      | [] => [[x]]
      | y :: ys => (x :: y) :: ys

/-- Rust `str::split(c)` on a `String`. -/
def strSplit (c : Char) (s : String) : List String :=
  (splitOnChar c s.data).map List.asString

/-- Rust `str::trim`: drop whitespace from both ends. -/
def trimChars (l : List Char) : List Char :=
  ((l.dropWhile Char.isWhitespace).reverse.dropWhile Char.isWhitespace).reverse

/-- Rust `str::trim` on a `String`. -/
def strTrim (s : String) : String :=
  (trimChars s.data).asString

/-- Rust `str::contains(c)`. -/
def strContains (s : String) (c : Char) : Bool :=
  s.data.contains c

/-- Rust `str::starts_with("/")`. -/
def startsWithSlash (s : String) : Bool :=
  match s.data with
  | c :: _ => c = '/'
  | [] => false

/-- Rust `str::starts_with("//")`. -/
def startsWithSlashSlash (s : String) : Bool :=
  match s.data with
  | a :: b :: _ => a = '/' && b = '/'
  | _ => false

/-- Rust `str::strip_prefix("//")` (on a string already known to start
with `//`): drop the two leading bytes. -/
def stripTwo (s : String) : String :=
  (s.data.drop 2).asString

/-- A component of a Rust `std::path::Path`, restricted to the relative
forms the linter manipulates (`Normal`, `CurDir`, `ParentDir`). -/
inductive PathComp where
  | normal (s : String)
  | curDir
  | parentDir
deriving DecidableEq, Repr

/-- A file path as a list of components (Rust `PathBuf`). -/
abbrev FsPath := List PathComp

/-- Split a path string on `/`, dropping empty pieces (Rust collapses
repeated separators). -/
def rawParts (s : String) : List String :=
  (strSplit '/' s).filter (fun x => x ≠ "")

def toComp (s : String) : PathComp :=
  if s = "." then .curDir else if s = ".." then .parentDir else .normal s

/-- Components of a relative path string, following Rust
`Path::components` normalization: interior `.` components are dropped,
a leading `.` is kept. -/
def pathComps (s : String) : FsPath :=
  match rawParts s with
  | [] => []
  | p :: rest => toComp p :: (rest.filter (fun x => x ≠ ".")).map toComp

/-- Rust `Path::parent`: `none` for an empty path, otherwise drop the
last component. -/
def parentOf (p : FsPath) : Option FsPath :=
  match p with
  | [] => none
  | _ => some p.dropLast

/-- One line event of a diff hunk, as produced by the libgit2 binding
(`Line` in the git module): an added line carries its new-file line
number, a removed line its old-file line number, a context line both. -/
inductive Line where
  | add (l : Nat)
  | remove (l : Nat)
  | context (old new : Nat)
deriving DecidableEq, Repr

/-- The event-driven hunk representation consumed by
`OnChangeBlock::is_changed_by_hunk`: new-file line range plus the
ordered line events. -/
structure Hunk where
  startLine : Nat
  endLine : Nat
  lines : List Line
deriving DecidableEq, Repr

/-- `ThenChangeTarget` from src/file.rs. -/
inductive ThenChangeTarget where
  | file (path : FsPath)
  | block (blockName : String) (filePath : Option FsPath)
deriving DecidableEq, Repr

/-- `ThenChangeTarget::file()`. -/
def ThenChangeTarget.fileOf : ThenChangeTarget → Option FsPath
  | .file f => some f
  | .block _ f => f

/-- `ThenChangeTarget::block()`. -/
def ThenChangeTarget.blockOf : ThenChangeTarget → Option String
  | .file _ => none
  | .block n _ => some n

/-- `ThenChange` from src/file.rs. -/
inductive ThenChange where
  | unset
  | noTarget
  | targets (ts : List ThenChangeTarget)
deriving DecidableEq, Repr

/-- `OnChangeBlock` from src/file.rs. -/
structure OnChangeBlock where
  file : FsPath
  name : Option String
  startLine : Nat
  endLine : Nat
  thenChange : ThenChange
deriving DecidableEq, Repr

/-- `OnChangeBlock::name()`: the display name, `<unnamed>` for an
untargetable block. -/
def OnChangeBlock.nameStr (b : OnChangeBlock) : String :=
  b.name.getD "<unnamed>"

/-- `OnChangeBlock::is_targetable()`. -/
def OnChangeBlock.isTargetable (b : OnChangeBlock) : Bool :=
  b.name.isSome

/-- `OnChangeBlock::is_hunk_overlap` (src/file.rs:121-130), the fast
pre-filter, with its four disjuncts exactly as written. -/
def OnChangeBlock.isHunkOverlap (b : OnChangeBlock) (h : Hunk) : Bool :=
  (decide (h.startLine ≥ b.startLine) && decide (h.endLine ≤ b.endLine)) ||
  (decide (b.startLine ≥ h.startLine) && decide (b.endLine ≤ h.endLine)) ||
  (decide (b.startLine ≥ h.startLine) && decide (h.endLine ≤ b.endLine)) ||
  (decide (h.startLine ≥ b.startLine) && decide (h.endLine ≥ b.endLine))

/-- The final loop of `is_changed_by_hunk`: check each removed old-file
line against the recovered old start/end anchors, in order, with the
same guards as the Rust `match`. -/
def checkRemovedLines : List Nat → Option Nat → Option Nat → Bool
  | [], _, _ => false
  | l :: rest, os, oe =>
    match os, oe with
    | some s, some e =>
      if s ≤ l ∧ l ≤ e then true else checkRemovedLines rest (some s) (some e)
    | some s, none =>
      if s ≤ l then true else checkRemovedLines rest (some s) none
    | none, some e =>
      if l ≤ e then true else checkRemovedLines rest none (some e)
    | none, none => checkRemovedLines rest none none

/-- The event loop of `is_changed_by_hunk`: early `return true` on an
added line inside the block, collect removed lines, recover the old
start/end anchors from context lines. -/
def changedScan (b : OnChangeBlock) :
    List Line → Option Nat → Option Nat → List Nat → Bool
  | [], os, oe, removed => checkRemovedLines removed os oe
  | .add l :: rest, os, oe, removed =>
    if b.startLine ≤ l ∧ l ≤ b.endLine then true
    else changedScan b rest os oe removed
  | .remove l :: rest, os, oe, removed =>
    changedScan b rest os oe (removed ++ [l])
  | .context o n :: rest, os, oe, removed =>
    if n = b.startLine then changedScan b rest (some o) oe removed
    else if n = b.endLine then changedScan b rest os (some o) removed
    else changedScan b rest os oe removed

/-- `OnChangeBlock::is_changed_by_hunk` (src/file.rs:133-189). -/
def OnChangeBlock.isChangedByHunk (b : OnChangeBlock) (h : Hunk) : Bool :=
  changedScan b h.lines none none []

/-- `OnChangeBlock::get_then_change_targets_as_keys` (src/file.rs:193-205):
each target as `(file_path, block_name)`, the file defaulting to the
block's own file. -/
def OnChangeBlock.getThenChangeTargetsAsKeys (b : OnChangeBlock) :
    List (FsPath × Option String) :=
  match b.thenChange with
  | .noTarget | .unset => []
  | .targets ts => ts.map (fun t => (t.fileOf.getD b.file, t.blockOf))

/-- One unnumbered line of the underlying diff, as it appears in the raw
patch consumed by `Cli::get_staged_hunks` (src/git/cli.rs). -/
inductive PatchLine where
  | add
  | remove
  | context
deriving DecidableEq, Repr

/-- The process-based hunk representation built by
`Cli::get_staged_hunks`: new-file line range plus the pre-computed
`changed_lines` set (and the add/remove counters it maintains). -/
structure CliHunk where
  startLine : Nat
  endLine : Nat
  changedLines : List Nat
  numAdded : Nat
  numRemoved : Nat
deriving DecidableEq, Repr

/-- The per-line loop of `Cli::get_staged_hunks` (src/git/cli.rs:91-113):
walk the patch lines with running old/new line counters; an added line
is pushed to `changed_lines`; a context line is pushed when the running
old/new drift disagrees with the add/remove counters (`u32::abs_diff`
is `Nat.dist`). -/
def cliScan : List PatchLine → Nat → Nat → CliHunk → CliHunk
  | [], _, _, h => h
  | .add :: rest, oldLine, newLine, h =>
    cliScan rest oldLine (newLine + 1)
      { h with changedLines := h.changedLines ++ [newLine],
               numAdded := h.numAdded + 1 }
  | .remove :: rest, oldLine, newLine, h =>
    cliScan rest (oldLine + 1) newLine { h with numRemoved := h.numRemoved + 1 }
  | .context :: rest, oldLine, newLine, h =>
    let h' :=
      if Nat.dist oldLine newLine ≠ Nat.dist h.numAdded h.numRemoved then
        { h with changedLines := h.changedLines ++ [newLine] }
      else h
    cliScan rest (oldLine + 1) (newLine + 1) h'

/-- A hunk as `Cli::get_staged_hunks` produces it: the range comes from
the patch header (`From<&patch::Hunk> for Hunk`, src/git/cli.rs:124-134),
then the lines are walked starting at the old/new range starts. -/
def cliBuildHunk (oldStart newStart newCount : Nat) (ls : List PatchLine) :
    CliHunk :=
  cliScan ls oldStart newStart
    { startLine := newStart, endLine := newStart + newCount - 1,
      changedLines := [], numAdded := 0, numRemoved := 0 }

/-- `Hunk::is_line_changed_within` (src/git.rs:48-55): some pre-computed
changed line lies strictly between `s` and `e`. -/
def CliHunk.isLineChangedWithin (h : CliHunk) (s e : Nat) : Bool :=
  h.changedLines.any (fun l => decide (s < l) && decide (l < e))

/-- The event-driven construction of the same underlying diff
(`From<DiffLine> for Line`, src/git/lib.rs:19-28): each patch line is
numbered by the running old/new counters that a well-formed patch
assigns to it. -/
def eventLines : List PatchLine → Nat → Nat → List Line
  | [], _, _ => []
  | .add :: rest, o, n => .add n :: eventLines rest o (n + 1)
  | .remove :: rest, o, n => .remove o :: eventLines rest (o + 1) n
  | .context :: rest, o, n => .context o n :: eventLines rest (o + 1) (n + 1)

/-- A hunk as the libgit2 binding produces it (`From<DiffHunk> for Hunk`,
src/git/lib.rs:9-17): same header range, line events instead of a
`changed_lines` set. -/
def eventBuildHunk (oldStart newStart newCount : Nat) (ls : List PatchLine) :
    Hunk :=
  { startLine := newStart, endLine := newStart + newCount - 1,
    lines := eventLines ls oldStart newStart }

/-- Scanner and target-resolution errors (the `anyhow!` errors of
src/file.rs, plus the two `expect`/`unwrap` panics reachable in
`parse_then_target_file_path`, kept as a distinct case). -/
inductive ParseError where
  | duplicateBlockName (name : String) (file : FsPath) (l1 l2 : Nat)
  | thenChangeNoMatch (file : FsPath) (line : Nat)
  | unclosedBlock (file : FsPath) (blockName : String) (startLine : Nat)
  | invalidTargetFile (target : String) (line : Nat)
  | targetNotExists (target : FsPath) (line : Nat)
  | invalidTarget (line : Nat) (target : String)
  | panicNoParent
deriving DecidableEq, Repr

/-- The prefix-stripping loop of `parse_then_target_file_path`
(src/file.rs:275-289): walk the target's leading `.`/`..` components,
stripping each and (for `..`) moving the referencing directory up one
parent (`expect("path should have a parent")` is the panic case); stop
at the first normal component. -/
def stripLoop (parent : FsPath) : FsPath → Except ParseError (FsPath × FsPath)
  | .curDir :: rest => stripLoop parent rest
  | .parentDir :: rest =>
    match parentOf parent with
    | none => .error .panicNoParent
    | some p => stripLoop p rest
  | raw => .ok (parent, raw)

/-- `File::parse_then_target_file_path` (src/file.rs:258-315).  `path`
is the referencing file, `existsF` the filesystem oracle for
`root_path.join(&file_path).exists()`, `target` the raw target string.
A relative target is joined onto the referencing file's directory after
the prefix strip (skipped when that directory equals the target's own
parent); a `//`-prefixed target is taken relative to the root; anything
else is invalid.  The result must exist under the root. -/
def parseThenTargetFilePath (path : FsPath) (existsF : FsPath → Bool)
    (target : String) (lineNum : Nat) : Except ParseError FsPath :=
  let raw := pathComps target
  let filePathE : Except ParseError FsPath :=
    if ¬ startsWithSlash target then
      match parentOf path with
      | none => .error .panicNoParent
      | some parent0 =>
        match parentOf raw with
        | none => .error .panicNoParent
        | some rawParent =>
          match (if parent0 ≠ rawParent then stripLoop parent0 raw
                 else .ok (parent0, raw)) with
          | .error e => .error e
          | .ok (parent, rawStripped) => .ok (parent ++ rawStripped)
    else if startsWithSlashSlash target then
      .ok (pathComps (stripTwo target))
    else
      .error (.invalidTargetFile target lineNum)
  match filePathE with
  | .error e => .error e
  | .ok filePath =>
    if existsF filePath then .ok filePath
    else .error (.targetNotExists filePath lineNum)

/-- `File::parse_single_then_change_target` (src/file.rs:317-355): no
`:` means a whole-file target; `:name` a same-file block target;
`file:name` a cross-file block target. -/
def parseSingleThenChangeTarget (path : FsPath) (existsF : FsPath → Bool)
    (t : String) (lineNum : Nat) : Except ParseError ThenChangeTarget :=
  if ¬ strContains t ':' then
    (parseThenTargetFilePath path existsF t lineNum).map ThenChangeTarget.file
  else
    match strSplit ':' t with
    | s0 :: s1 :: _ =>
      if s0 = "" then .ok (.block s1 none)
      else (parseThenTargetFilePath path existsF s0 lineNum).map
        (fun fp => .block s1 (some fp))
    | _ => .error (.invalidTarget lineNum t)

/-- The comma-split loop of `build_then_change`: parse each trimmed
sub-target in order, failing on the first error. -/
def parseTargets (path : FsPath) (existsF : FsPath → Bool) (lineNum : Nat) :
    List String → Except ParseError (List ThenChangeTarget)
  | [] => .ok []
  | s :: rest =>
    match parseSingleThenChangeTarget path existsF (strTrim s) lineNum with
    | .error e => .error e
    | .ok t => (parseTargets path existsF lineNum rest).map (fun ts => t :: ts)

/-- `File::build_then_change` (src/file.rs:357-385): trim; empty means
`NoTarget`; otherwise split on `,` (the `len == 0` fallback of the
source is kept even though `split` never yields zero pieces). -/
def buildThenChange (path : FsPath) (existsF : FsPath → Bool)
    (target : String) (lineNum : Nat) : Except ParseError ThenChange :=
  let t := strTrim target
  if t = "" then .ok .noTarget
  else
    let parts := strSplit ',' t
    let parts := if parts.length = 0 then [t] else parts
    (parseTargets path existsF lineNum parts).map ThenChange.targets

/-- One marker match found by the combined regex scan, with the line
number obtained from the byte-offset index (the `LineMatch` values of
`File::parse_internal`). -/
inductive MarkerEvent where
  | onChange (raw : String) (line : Nat)
  | thenChange (raw : String) (line : Nat)
deriving DecidableEq, Repr

def MarkerEvent.line : MarkerEvent → Nat
  | .onChange _ l => l
  | .thenChange _ l => l

/-- `File::handle_on_change` (src/file.rs:387-425): empty captured name
means unnamed/untargetable; a duplicate name is an error citing both
start lines; otherwise push an open block with `then_change = Unset`.
The Rust `Vec` stack grows at the back; here the top is the head. -/
def handleOnChange (file : FsPath) (parsed : String) (lineNum : Nat)
    (names : List (String × Nat)) (stack : List OnChangeBlock) :
    Except ParseError (List (String × Nat) × List OnChangeBlock) :=
  let blockName : Option String := if parsed = "" then none else some parsed
  match blockName with
  | some bn =>
    match names.lookup bn with
    | some l1 => .error (.duplicateBlockName bn file l1 lineNum)
    | none =>
      .ok ((bn, lineNum) :: names,
        { file := file, name := some bn, startLine := lineNum, endLine := 0,
          thenChange := .unset } :: stack)
  | none =>
    .ok (names,
      { file := file, name := none, startLine := lineNum, endLine := 0,
        thenChange := .unset } :: stack)

/-- `File::handle_then_change` (src/file.rs:427-446): pop the innermost
open block (an empty stack is the no-matching-OnChange error), set its
end line and parse its target string. -/
def handleThenChange (path : FsPath) (existsF : FsPath → Bool)
    (parsed : String) (lineNum : Nat) (stack : List OnChangeBlock) :
    Except ParseError (OnChangeBlock × List OnChangeBlock) :=
  match stack with
  | [] => .error (.thenChangeNoMatch path lineNum)
  | b :: rest =>
    match buildThenChange path existsF parsed lineNum with
    | .error e => .error e
    | .ok tc => .ok ({ b with endLine := lineNum, thenChange := tc }, rest)

/-- The match-processing loop of `File::parse_internal`
(src/file.rs:519-543), threading the duplicate-name map, the LIFO block
stack and the output list; returns all three so the final state is
visible to the theorems. -/
def parseLoop (path : FsPath) (existsF : FsPath → Bool) :
    List MarkerEvent → List (String × Nat) → List OnChangeBlock →
    List OnChangeBlock →
    Except ParseError (List OnChangeBlock × List OnChangeBlock × List (String × Nat))
  | [], names, stack, blocks => .ok (blocks, stack, names)
  | .onChange raw l :: rest, names, stack, blocks =>
    match handleOnChange path raw l names stack with
    | .error e => .error e
    | .ok (names', stack') => parseLoop path existsF rest names' stack' blocks
  | .thenChange raw l :: rest, names, stack, blocks =>
    match handleThenChange path existsF raw l stack with
    | .error e => .error e
    | .ok (b, stack') => parseLoop path existsF rest names stack' (blocks ++ [b])

/-- `File::parse_internal` (src/file.rs:483-557) from the match list on:
run the loop, then a non-empty stack is the unclosed-block error naming
the innermost open block (`block_stack.last()`, the head here) and its
start line. -/
def parseInternal (path : FsPath) (existsF : FsPath → Bool)
    (events : List MarkerEvent) : Except ParseError (List OnChangeBlock) :=
  match parseLoop path existsF events [] [] [] with
  | .error e => .error e
  | .ok (blocks, stack, _) =>
    match stack with
    | [] => .ok blocks
    | top :: _ => .error (.unclosedBlock path top.nameStr top.startLine)

/-- Names of the named `OnChange` markers of an event list, in order. -/
def namedOpens (evs : List MarkerEvent) : List String :=
  evs.filterMap (fun e => match e with
    | .onChange r _ => if r = "" then none else some r
    | _ => none)

/-- Lines of the `ThenChange` markers of an event list, in order. -/
def closeLines (evs : List MarkerEvent) : List Nat :=
  evs.filterMap (fun e => match e with
    | .thenChange _ l => some l
    | _ => none)

/-- Every `ThenChange` marker's target string parses successfully. -/
def allTargetsOk (path : FsPath) (existsF : FsPath → Bool)
    (evs : List MarkerEvent) : Bool :=
  evs.all (fun e => match e with
    | .thenChange r l => (buildThenChange path existsF r l).isOk
    | _ => true)

/-- Properly nested `OnChange`/`ThenChange` sequences: the Dyck-word
structure of a well-formed file. -/
inductive Nested : List MarkerEvent → Prop where
  | nil : Nested []
  | pair (no nc : String) (lo lc : Nat) (inner rest : List MarkerEvent) :
      Nested inner → Nested rest →
      Nested (MarkerEvent.onChange no lo ::
        (inner ++ MarkerEvent.thenChange nc lc :: rest))

/-- `File` from src/file.rs: relative path plus the parsed blocks. -/
structure PFile where
  path : FsPath
  blocks : List OnChangeBlock
deriving DecidableEq, Repr

/-- `Parser` from src/parser.rs: the ordered file map, modelled as a
list of files (keyed by `path`). -/
structure Parser where
  files : List PFile
deriving DecidableEq, Repr

/-- `self.files.get(path)` on the file map. -/
def Parser.getFile (p : Parser) (path : FsPath) : Option PFile :=
  p.files.find? (fun f => decide (f.path = path))

/-- `self.files.contains_key(path)`. -/
def Parser.containsFile (p : Parser) (path : FsPath) : Bool :=
  p.files.any (fun f => decide (f.path = path))

/-- `Parser::on_change_blocks` (src/parser.rs:63-74), reduced to the key
set the validator queries: `(path, name)` for every targetable block. -/
def Parser.targetableKeys (p : Parser) : List (FsPath × String) :=
  p.files.flatMap (fun f =>
    (f.blocks.filter (fun b => b.isTargetable)).map (fun b => (f.path, b.nameStr)))

/-- Structural-validation errors (the `anyhow!` errors of
`Parser::validate`/`Parser::validate_block_target`), each carrying the
offending block's name, file and end line plus the missing target. -/
inductive VError where
  | fileTargetMissing (blockName : String) (path : FsPath) (endLine : Nat)
      (target : FsPath)
  | blockTargetMissing (blockName : String) (path : FsPath) (endLine : Nat)
      (targetFile : FsPath) (targetBlock : String)
  | unsetTarget (blockName : String) (path : FsPath) (endLine : Nat)
deriving DecidableEq, Repr

/-- `Parser::validate_block_target` (src/parser.rs:22-60): a `File`
target must be a key of the file map; a `Block` target (file defaulting
to the owning map key) must be a targetable-block key. -/
def Parser.validateBlockTarget (p : Parser) (path : FsPath)
    (b : OnChangeBlock) (t : ThenChangeTarget) : Except VError Unit :=
  match t with
  | .file f =>
    if p.containsFile f then .ok ()
    else .error (.fileTargetMissing b.nameStr path b.endLine f)
  | .block tb fOpt =>
    let f := fOpt.getD path
    if (f, tb) ∈ p.targetableKeys then .ok ()
    else .error (.blockTargetMissing b.nameStr path b.endLine f tb)

/-- The target loop of `Parser::validate`, failing on the first bad
target. -/
def Parser.validateTargets (p : Parser) (path : FsPath) (b : OnChangeBlock) :
    List ThenChangeTarget → Except VError Unit
  | [] => .ok ()
  | t :: ts =>
    match p.validateBlockTarget path b t with
    | .ok _ => p.validateTargets path b ts
    | .error e => .error e

/-- The block loop of `Parser::validate`: `NoTarget` passes, `Targets`
are each validated, `Unset` is the internal-invariant error. -/
def Parser.validateBlocks (p : Parser) (path : FsPath) :
    List OnChangeBlock → Except VError Unit
  | [] => .ok ()
  | b :: bs =>
    match b.thenChange with
    | .noTarget => p.validateBlocks path bs
    | .targets ts =>
      match p.validateTargets path b ts with
      | .ok _ => p.validateBlocks path bs
      | .error e => .error e
    | .unset => .error (.unsetTarget b.nameStr path b.endLine)

/-- The file loop of `Parser::validate`. -/
def Parser.validateFiles (p : Parser) : List PFile → Except VError Unit
  | [] => .ok ()
  | f :: fs =>
    match p.validateBlocks f.path f.blocks with
    | .ok _ => p.validateFiles fs
    | .error e => .error e

/-- `Parser::validate` (src/parser.rs:76-101): single pass over all
blocks of all files.  `Parser::from_files` and `Parser::from_directory`
call this and return `Ok` only when it succeeds (src/parser.rs:187,259). -/
def Parser.validate (p : Parser) : Except VError Unit :=
  p.validateFiles p.files

/-- `Parser::get_block_in_file` (src/parser.rs:273-281). -/
def Parser.getBlockInFile (p : Parser) (path : FsPath) (name : String) :
    Option OnChangeBlock :=
  (p.getFile path).bind (fun f => f.blocks.find? (fun b => decide (b.nameStr = name)))

/-- `OnChangeViolation` (src/parser.rs:296-302), without the root path
(only used for display). -/
structure OnChangeViolation where
  block : OnChangeBlock
  targetFile : FsPath
  targetBlock : Option OnChangeBlock
deriving DecidableEq, Repr

/-- The per-target loop of `Parser::validate_changed_files_and_blocks`
(src/parser.rs:392-413): a `Block` target key not in the
changed-targetable set yields a violation (after the
`expect("block should exist")` lookup, whose failure is the panic,
modelled as `none`); a `File` target key not in the changed-file set
yields a violation. -/
def Parser.targetsLoop (p : Parser) (filesChanged : List FsPath)
    (targetableChanged : List (FsPath × String)) (b : OnChangeBlock) :
    List (FsPath × Option String) → Option (List OnChangeViolation)
  | [] => some []
  | (f, some name) :: rest =>
    if (f, name) ∈ targetableChanged then
      p.targetsLoop filesChanged targetableChanged b rest
    else
      match p.getBlockInFile f name with
      | none => none
      | some tb =>
        (p.targetsLoop filesChanged targetableChanged b rest).map
          (fun vs => { block := b, targetFile := f, targetBlock := some tb } :: vs)
  | (f, none) :: rest =>
    if f ∈ filesChanged then
      p.targetsLoop filesChanged targetableChanged b rest
    else
      (p.targetsLoop filesChanged targetableChanged b rest).map
        (fun vs => { block := b, targetFile := f, targetBlock := none } :: vs)

/-- The outer loop of `Parser::validate_changed_files_and_blocks`
(src/parser.rs:390-414): accumulate every changed block's violations. -/
def Parser.blocksLoop (p : Parser) (filesChanged : List FsPath)
    (targetableChanged : List (FsPath × String)) :
    List OnChangeBlock → Option (List OnChangeViolation)
  | [] => some []
  | b :: bs =>
    match p.targetsLoop filesChanged targetableChanged b
        b.getThenChangeTargetsAsKeys with
    | none => none
    | some vs =>
      (p.blocksLoop filesChanged targetableChanged bs).map (fun vs' => vs ++ vs')

/-- `Parser::validate_changed_files_and_blocks` (src/parser.rs:378-417).
`none` models the `expect("block should exist")` panic. -/
def Parser.validateChangedFilesAndBlocks (p : Parser)
    (filesChanged : List FsPath) (blocksChanged : List OnChangeBlock)
    (targetableChanged : List (FsPath × String)) :
    Option (List OnChangeViolation) :=
  p.blocksLoop filesChanged targetableChanged blocksChanged

/-- The number of unmet targets of one changed block: its target keys
whose block key is not in the changed-targetable set, or whose file key
is not in the changed-file set. -/
def unmetCount (filesChanged : List FsPath)
    (targetableChanged : List (FsPath × String)) (b : OnChangeBlock) : Nat :=
  (b.getThenChangeTargetsAsKeys.filter (fun k =>
    match k with
    | (f, some n) => decide ((f, n) ∉ targetableChanged)
    | (f, none) => decide (f ∉ filesChanged))).length

/-- Number of `OnChange`/`ThenChange` pairs of an event list (one block
is completed per close marker). -/
def closeCount (evs : List MarkerEvent) : Nat :=
  (closeLines evs).length

/-! Concrete inputs used by the witnesses below. -/

/-- A sample relative file path. -/
def fileD : FsPath := [.normal "f1.txt"]

/-- A filesystem oracle for inputs whose targets are all empty. -/
def noFs : FsPath → Bool := fun _ => false

/-- Sample path `f1.txt` for the change-validation witnesses. -/
def fP1 : FsPath := [.normal "f1.txt"]

/-- Sample path `f2.txt`. -/
def fP2 : FsPath := [.normal "f2.txt"]

/-- Sample path `f3.txt`. -/
def fP3 : FsPath := [.normal "f3.txt"]

/-- Sample path `f4.txt`. -/
def fP4 : FsPath := [.normal "f4.txt"]

/-- A targetable block `default` in `f1.txt`. -/
def blkDefault : OnChangeBlock :=
  { file := fP1, name := some "default", startLine := 1, endLine := 3,
    thenChange := .noTarget }

/-- A targetable block `potato` in `f2.txt`. -/
def blkPotato : OnChangeBlock :=
  { file := fP2, name := some "potato", startLine := 1, endLine := 2,
    thenChange := .noTarget }

/-- A targetable block `something` in `f4.txt`. -/
def blkSomething : OnChangeBlock :=
  { file := fP4, name := some "something", startLine := 1, endLine := 2,
    thenChange := .noTarget }

/-- An unnamed block in `f3.txt` with three comma-separated targets. -/
def blkMulti : OnChangeBlock :=
  { file := fP3, name := none, startLine := 1, endLine := 3,
    thenChange := .targets
      [.block "default" (some fP1), .block "potato" (some fP2),
       .block "something" (some fP4)] }

/-- The four-file parser of the multi-target scenario. -/
def parserW : Parser :=
  { files :=
      [{ path := fP1, blocks := [blkDefault] },
       { path := fP2, blocks := [blkPotato] },
       { path := fP3, blocks := [blkMulti] },
       { path := fP4, blocks := [blkSomething] }] }

/-- A block `a` in `f1.txt` targeting block `b` of `f2.txt`. -/
def blkA : OnChangeBlock :=
  { file := fP1, name := some "a", startLine := 1, endLine := 3,
    thenChange := .targets [.block "b" (some fP2)] }

/-- A targetable block `b` in `f2.txt` with no obligation. -/
def blkB : OnChangeBlock :=
  { file := fP2, name := some "b", startLine := 1, endLine := 2,
    thenChange := .noTarget }

/-- A two-file parser that passes structural validation. -/
def parserV : Parser :=
  { files :=
      [{ path := fP1, blocks := [blkA] },
       { path := fP2, blocks := [blkB] }] }

/-! ## Helper lemmas for the change check -/

theorem changedScan_true_of_add (b : OnChangeBlock) :
    ∀ (ls : List Line) (os oe : Option Nat) (removed : List Nat) (l : Nat),
      Line.add l ∈ ls → b.startLine ≤ l → l ≤ b.endLine →
      changedScan b ls os oe removed = true := by
  intro ls
  induction ls with
  | nil => intro os oe removed l h _ _; cases h
  | cons hd tl ih =>
    intro os oe removed l hmem h1 h2
    cases hd with
    | add l' =>
      rcases List.mem_cons.mp hmem with heq | hmem'
      · injection heq with hl
        subst hl
        simp [changedScan, h1, h2]
      · by_cases hin : b.startLine ≤ l' ∧ l' ≤ b.endLine
        · simp [changedScan, hin]
        · simp only [changedScan, if_neg hin]
          exact ih _ _ _ _ hmem' h1 h2
    | remove l' =>
      simp only [changedScan]
      exact ih _ _ _ _ (by simpa using hmem) h1 h2
    | context o n =>
      have hmem' : Line.add l ∈ tl := by simpa using hmem
      simp only [changedScan]
      split
      · exact ih _ _ _ _ hmem' h1 h2
      · split
        · exact ih _ _ _ _ hmem' h1 h2
        · exact ih _ _ _ _ hmem' h1 h2

theorem checkRemovedLines_none_none (removed : List Nat) :
    checkRemovedLines removed none none = false := by
  induction removed with
  | nil => rfl
  | cons l rest ih => simpa [checkRemovedLines] using ih

theorem changedScan_false_of_outside (b : OnChangeBlock)
    (hse : b.startLine ≤ b.endLine) :
    ∀ (ls : List Line) (removed : List Nat),
      (∀ l, Line.add l ∈ ls → l < b.startLine ∨ b.endLine < l) →
      (∀ o n, Line.context o n ∈ ls → n < b.startLine ∨ b.endLine < n) →
      changedScan b ls none none removed = false := by
  intro ls
  induction ls with
  | nil => intro removed _ _; exact checkRemovedLines_none_none removed
  | cons hd tl ih =>
    intro removed hadd hctx
    cases hd with
    | add l =>
      have hl := hadd l (List.mem_cons_self _ _)
      have hnin : ¬ (b.startLine ≤ l ∧ l ≤ b.endLine) := by omega
      simp only [changedScan, if_neg hnin]
      exact ih removed (fun l' h => hadd l' (List.mem_cons_of_mem _ h))
        (fun o n h => hctx o n (List.mem_cons_of_mem _ h))
    | remove l =>
      simp only [changedScan]
      exact ih (removed ++ [l]) (fun l' h => hadd l' (List.mem_cons_of_mem _ h))
        (fun o n h => hctx o n (List.mem_cons_of_mem _ h))
    | context o n =>
      have hn := hctx o n (List.mem_cons_self _ _)
      have hns : ¬ n = b.startLine := by omega
      have hne : ¬ n = b.endLine := by omega
      simp only [changedScan, if_neg hns, if_neg hne]
      exact ih removed (fun l' h => hadd l' (List.mem_cons_of_mem _ h))
        (fun o' n' h => hctx o' n' (List.mem_cons_of_mem _ h))

/-! ## Helper lemmas relating the two hunk constructions -/

theorem cliScan_changedLines_mono :
    ∀ (ls : List PatchLine) (o n : Nat) (h : CliHunk) (x : Nat),
      x ∈ h.changedLines → x ∈ (cliScan ls o n h).changedLines := by
  intro ls
  induction ls with
  | nil => intro o n h x hx; exact hx
  | cons hd tl ih =>
    intro o n h x hx
    cases hd with
    | add => exact ih _ _ _ _ (by simp [hx])
    | remove => exact ih _ _ _ _ hx
    | context =>
      simp only [cliScan]
      split
      · exact ih _ _ _ _ (by simp [hx])
      · exact ih _ _ _ _ hx

theorem add_mem_cliScan_changedLines :
    ∀ (ls : List PatchLine) (o n : Nat) (h : CliHunk) (l : Nat),
      Line.add l ∈ eventLines ls o n → l ∈ (cliScan ls o n h).changedLines := by
  intro ls
  induction ls with
  | nil => intro o n h l hl; cases hl
  | cons hd tl ih =>
    intro o n h l hl
    cases hd with
    | add =>
      rcases List.mem_cons.mp hl with heq | hmem
      · injection heq with hln
        subst hln
        exact cliScan_changedLines_mono tl o (l + 1) _ l (by simp)
      · exact ih _ _ _ _ hmem
    | remove =>
      exact ih _ _ _ _ (by simpa [eventLines] using hl)
    | context =>
      have hmem : Line.add l ∈ eventLines tl (o + 1) (n + 1) := by
        simpa [eventLines] using hl
      simp only [cliScan]
      split
      · exact ih _ _ _ _ hmem
      · exact ih _ _ _ _ hmem

/-! ## C1: precision of the change check -/

/-- C1: for every block and hunk, `is_changed_by_hunk` reports the block
changed whenever some `Add` event's new-file line number lies within
`[start_line, end_line]`, and reports it unchanged when every added,
removed and context line of the hunk lies strictly outside the block. -/
theorem changeCheck_add_inside_and_outside (b : OnChangeBlock) (h : Hunk)
    (hse : b.startLine ≤ b.endLine) :
    ((∃ l, Line.add l ∈ h.lines ∧ b.startLine ≤ l ∧ l ≤ b.endLine) →
      b.isChangedByHunk h = true) ∧
    ((∀ l, Line.add l ∈ h.lines → l < b.startLine ∨ b.endLine < l) →
     (∀ l, Line.remove l ∈ h.lines → l < b.startLine ∨ b.endLine < l) →
     (∀ o n, Line.context o n ∈ h.lines → n < b.startLine ∨ b.endLine < n) →
      b.isChangedByHunk h = false) := by
  constructor
  · rintro ⟨l, hmem, h1, h2⟩
    exact changedScan_true_of_add b h.lines none none [] l hmem h1 h2
  · intro hadd _ hctx
    exact changedScan_false_of_outside b hse h.lines [] hadd hctx

/-- C1 witness: a block spanning lines 5-10 is changed by a hunk adding
a line at new-line 7, and unchanged by a hunk touching only lines 1-3. -/
theorem changeCheck_add_inside_and_outside_witness :
    OnChangeBlock.isChangedByHunk
      { file := [], name := some "x", startLine := 5, endLine := 10,
        thenChange := .noTarget }
      { startLine := 7, endLine := 7, lines := [.add 7] } = true ∧
    OnChangeBlock.isChangedByHunk
      { file := [], name := some "x", startLine := 5, endLine := 10,
        thenChange := .noTarget }
      { startLine := 1, endLine := 3,
        lines := [.context 1 1, .add 2, .remove 2, .context 3 3] } = false := by
  constructor
  · exact (changeCheck_add_inside_and_outside _ _ (by decide)).1
      ⟨7, by decide, by decide, by decide⟩
  · exact (changeCheck_add_inside_and_outside _ _ (by decide)).2
      (by intro l hl; simp at hl ⊢; omega)
      (by intro l hl; simp at hl ⊢; omega)
      (by intro o n hn; simp at hn ⊢; omega)

/-! ## C7: the fast overlap pre-filter -/

/-- C7 counterexample: the hunk `[1,3]` is disjoint from the block
`[5,10]` (`3 < 5`), yet `is_hunk_overlap` returns `true` (its fourth
disjunct, `hunk.start_line >= block.start_line ... hunk.end_line >=
block.end_line`, never constrains the ranges to intersect), refuting
"it returns false whenever the two ranges are disjoint". -/
theorem isHunkOverlap_disjoint_cex :
    (3 < 5) ∧
    OnChangeBlock.isHunkOverlap
      { file := [], name := none, startLine := 5, endLine := 10,
        thenChange := .noTarget }
      { startLine := 1, endLine := 3, lines := [] } = true := by
  decide

/-- C7 amended: `is_hunk_overlap` returns `true` for every block and
every hunk — in particular whenever the two line ranges overlap, so as
a pre-filter it never discards a relevant hunk — but it also returns
`true` when the ranges are disjoint: its four disjuncts cover the whole
order on `(start, end)` pairs. -/
theorem isHunkOverlap_always_true (b : OnChangeBlock) (h : Hunk) :
    b.isHunkOverlap h = true := by
  simp only [OnChangeBlock.isHunkOverlap, Bool.or_eq_true, Bool.and_eq_true,
    decide_eq_true_eq, ge_iff_le]
  omega

/-! ## C5: agreement of the two hunk representations -/

/-- C5 counterexample: for the one-line diff that adds new-file line 5
(`old_start = new_start = 5`, one added line), the event-driven check
classifies the block `[5,10]` as changed (the added line equals the
block's start line, and `is_changed_by_hunk` uses inclusive bounds),
while the `changed_lines` check `is_line_changed_within` uses strict
bounds and classifies it unchanged — so the two constructions do not
classify every block identically. -/
theorem hunkRepresentations_boundary_cex :
    OnChangeBlock.isChangedByHunk
      { file := [], name := some "x", startLine := 5, endLine := 10,
        thenChange := .noTarget }
      (eventBuildHunk 5 5 1 [.add]) = true ∧
    CliHunk.isLineChangedWithin (cliBuildHunk 5 5 1 [.add]) 5 10 = false := by
  decide

/-- C5 amended: the two constructions agree that a block is changed
whenever the diff adds a line strictly inside the block
(`start_line < l < end_line`): the event-driven `is_changed_by_hunk`
and the process-based `changed_lines`/`is_line_changed_within` then
both report the block changed.  (They can disagree when a changed line
coincides with a block boundary, as the counterexample shows.) -/
theorem hunkRepresentations_agree_strict_interior
    (ls : List PatchLine) (oldStart newStart newCount : Nat)
    (b : OnChangeBlock) (l : Nat)
    (hmem : Line.add l ∈ eventLines ls oldStart newStart)
    (h1 : b.startLine < l) (h2 : l < b.endLine) :
    b.isChangedByHunk (eventBuildHunk oldStart newStart newCount ls) = true ∧
    (cliBuildHunk oldStart newStart newCount ls).isLineChangedWithin
      b.startLine b.endLine = true := by
  constructor
  · exact changedScan_true_of_add b _ none none [] l hmem (by omega) (by omega)
  · have hcl : l ∈ (cliBuildHunk oldStart newStart newCount ls).changedLines :=
      add_mem_cliScan_changedLines ls oldStart newStart _ l hmem
    simp only [CliHunk.isLineChangedWithin, List.any_eq_true, Bool.and_eq_true,
      decide_eq_true_eq]
    exact ⟨l, hcl, h1, h2⟩

/-- C5 witness: the diff `context, add, context` starting at old/new
line 4 adds new-file line 5; the block `[4,6]` contains it strictly, and
both representations report the block changed. -/
theorem hunkRepresentations_agree_strict_interior_witness :
    OnChangeBlock.isChangedByHunk
      { file := [], name := some "x", startLine := 4, endLine := 6,
        thenChange := .noTarget }
      (eventBuildHunk 4 4 3 [.context, .add, .context]) = true ∧
    (cliBuildHunk 4 4 3 [.context, .add, .context]).isLineChangedWithin
      4 6 = true :=
  hunkRepresentations_agree_strict_interior
    [.context, .add, .context] 4 4 3
    { file := [], name := some "x", startLine := 4, endLine := 6,
      thenChange := .noTarget }
    5 (by decide) (by decide) (by decide)

/-! ## C6: target path resolution -/

/-- C6: evaluation of `parse_then_target_file_path` at the failing
input.  The referencing file is `d/f.txt` and the target string is
`../a/b/../c`, whose `..` is not only a prefix; the function's own doc
comment says such a form is not supported, but the code only strips the
*leading* `.`/`..` components and then joins, so with a filesystem on
which the literal path `a/b/../c` exists it returns `Ok` with the `..`
embedded — it never returns the malformed-target error. -/
theorem parseThenTargetFilePath_infix_dotdot_accepted :
    parseThenTargetFilePath (pathComps "d/f.txt")
      (fun p => decide (p = pathComps "a/b/../c")) "../a/b/../c" 6
      = .ok [.normal "a", .normal "b", .parentDir, .normal "c"] := by
  rfl

/-! ## Helper lemmas for the scanner -/

theorem namedOpens_nil : namedOpens [] = [] := rfl

theorem namedOpens_cons_onChange (r : String) (l : Nat) (t : List MarkerEvent) :
    namedOpens (.onChange r l :: t) =
      if r = "" then namedOpens t else r :: namedOpens t := by
  by_cases h : r = ""
  · simp [namedOpens, List.filterMap_cons, h]
  · simp [namedOpens, List.filterMap_cons, h]

theorem namedOpens_cons_thenChange (r : String) (l : Nat)
    (t : List MarkerEvent) :
    namedOpens (.thenChange r l :: t) = namedOpens t := by
  simp [namedOpens, List.filterMap_cons]

theorem namedOpens_append (xs ys : List MarkerEvent) :
    namedOpens (xs ++ ys) = namedOpens xs ++ namedOpens ys := by
  simp [namedOpens, List.filterMap_append]

theorem closeLines_nil : closeLines [] = [] := rfl

theorem closeLines_cons_onChange (r : String) (l : Nat)
    (t : List MarkerEvent) :
    closeLines (.onChange r l :: t) = closeLines t := by
  simp [closeLines, List.filterMap_cons]

theorem closeLines_cons_thenChange (r : String) (l : Nat)
    (t : List MarkerEvent) :
    closeLines (.thenChange r l :: t) = l :: closeLines t := by
  simp [closeLines, List.filterMap_cons]

theorem closeLines_append (xs ys : List MarkerEvent) :
    closeLines (xs ++ ys) = closeLines xs ++ closeLines ys := by
  simp [closeLines, List.filterMap_append]

theorem lookup_cons_string (n k : String) (v : Nat) (t : List (String × Nat)) :
    List.lookup n ((k, v) :: t) = if n = k then some v else List.lookup n t := by
  simp only [List.lookup]
  by_cases h : n = k
  · simp [h]
  · simp [h, beq_false_of_ne h]

theorem parseLoop_append (path : FsPath) (existsF : FsPath → Bool) :
    ∀ (xs ys : List MarkerEvent) (names : List (String × Nat))
      (stack blocks : List OnChangeBlock),
      parseLoop path existsF (xs ++ ys) names stack blocks =
        match parseLoop path existsF xs names stack blocks with
        | .error e => .error e
        | .ok (blocks', stack', names') =>
          parseLoop path existsF ys names' stack' blocks' := by
  intro xs
  induction xs with
  | nil => intro ys names stack blocks; rfl
  | cons hd tl ih =>
    intro ys names stack blocks
    cases hd with
    | onChange raw l =>
      simp only [List.cons_append, parseLoop]
      cases h : handleOnChange path raw l names stack with
      | error e => rfl
      | ok p => exact ih ys p.1 p.2 blocks
    | thenChange raw l =>
      simp only [List.cons_append, parseLoop]
      cases h : handleThenChange path existsF raw l stack with
      | error e => rfl
      | ok p => exact ih ys names p.2 (blocks ++ [p.1])

/-- The central invariant of the scanner loop on a properly nested
event sequence: the loop succeeds, leaves the stack exactly as it found
it, appends one completed block per `ThenChange` marker (in close
order), every completed block has `start_line < end_line`, and the
duplicate-name map ends up holding exactly the names it started with
plus the sequence's named opens. -/
theorem parseLoop_nested (path : FsPath) (existsF : FsPath → Bool) :
    ∀ {evs : List MarkerEvent}, Nested evs →
    ∀ (names : List (String × Nat)) (stack blocks : List OnChangeBlock),
      allTargetsOk path existsF evs = true →
      (namedOpens evs).Nodup →
      (∀ n ∈ namedOpens evs, List.lookup n names = none) →
      (evs.map MarkerEvent.line).Pairwise (· < ·) →
      ∃ (newBlocks : List OnChangeBlock) (names' : List (String × Nat)),
        parseLoop path existsF evs names stack blocks =
          .ok (blocks ++ newBlocks, stack, names') ∧
        newBlocks.map OnChangeBlock.endLine = closeLines evs ∧
        (∀ b ∈ newBlocks, b.startLine < b.endLine) ∧
        (∀ n : String, (List.lookup n names').isSome ↔
          n ∈ namedOpens evs ∨ (List.lookup n names).isSome) := by
  intro evs hn
  induction hn with
  | nil =>
    intro names stack blocks _ _ _ _
    exact ⟨[], names, by simp [parseLoop], by simp [closeLines_nil],
      by simp, by simp [namedOpens_nil]⟩
  | pair no nc lo lc inner rest hinner hrest ihinner ihrest =>
    intro names stack blocks hall hnodup hfresh hpw
    -- Decompose the hypotheses along the cons/append structure.
    have hallI : allTargetsOk path existsF inner = true := by
      simp only [allTargetsOk, List.all_cons, List.all_append,
        Bool.and_eq_true] at hall
      exact hall.2.1
    have hallC : (buildThenChange path existsF nc lc).isOk = true := by
      simp only [allTargetsOk, List.all_cons, List.all_append,
        Bool.and_eq_true] at hall
      exact hall.2.2.1
    have hallR : allTargetsOk path existsF rest = true := by
      simp only [allTargetsOk, List.all_cons, List.all_append,
        Bool.and_eq_true] at hall
      exact hall.2.2.2
    have hnodup' : ((if no = "" then [] else [no]) ++
        (namedOpens inner ++ namedOpens rest)).Nodup := by
      have h1 := hnodup
      rw [namedOpens_cons_onChange, namedOpens_append,
        namedOpens_cons_thenChange] at h1
      by_cases hno : no = "" <;> simp [hno] at h1 ⊢ <;> tauto
    have hndI : (namedOpens inner).Nodup :=
      ((List.nodup_append.mp ((List.nodup_append.mp hnodup').2.1)).1)
    have hndR : (namedOpens rest).Nodup :=
      ((List.nodup_append.mp ((List.nodup_append.mp hnodup').2.1)).2.1)
    have hdisjIR : (namedOpens inner).Disjoint (namedOpens rest) :=
      ((List.nodup_append.mp ((List.nodup_append.mp hnodup').2.1)).2.2)
    have hnoNotIn : no ≠ "" → no ∉ namedOpens inner ∧ no ∉ namedOpens rest := by
      intro hno
      have := (List.nodup_append.mp hnodup').2.2
      simp [hno, List.Disjoint] at this
      exact this
    have hmemEvs : ∀ n, n ∈ namedOpens inner ∨ n ∈ namedOpens rest ∨
        (no ≠ "" ∧ n = no) →
        n ∈ namedOpens (MarkerEvent.onChange no lo ::
          (inner ++ MarkerEvent.thenChange nc lc :: rest)) := by
      intro n hmem
      rw [namedOpens_cons_onChange, namedOpens_append,
        namedOpens_cons_thenChange]
      by_cases hno : no = "" <;> simp [hno] <;> tauto
    have hfresh' : ∀ n, n ∈ namedOpens inner ∨ n ∈ namedOpens rest ∨
        (no ≠ "" ∧ n = no) → List.lookup n names = none := by
      intro n hmem
      exact hfresh n (hmemEvs n hmem)
    -- Line-number ordering facts.
    have hpw' : ((lo :: (inner.map MarkerEvent.line ++
        lc :: rest.map MarkerEvent.line))).Pairwise (· < ·) := by
      simpa using hpw
    have hloLt := (List.pairwise_cons.mp hpw').1
    have hpwTail := (List.pairwise_cons.mp hpw').2
    have hpwI : (inner.map MarkerEvent.line).Pairwise (· < ·) :=
      (List.pairwise_append.mp hpwTail).1
    have hpwR : (rest.map MarkerEvent.line).Pairwise (· < ·) :=
      (List.pairwise_cons.mp (List.pairwise_append.mp hpwTail).2.1).2
    have hlolc : lo < lc :=
      hloLt lc (List.mem_append_right _ (List.mem_cons_self _ _))
    -- Step 1: the open marker pushes a fresh block.
    set B : OnChangeBlock :=
      { file := path, name := if no = "" then none else some no,
        startLine := lo, endLine := 0, thenChange := .unset } with hB
    set names1 : List (String × Nat) :=
      if no = "" then names else (no, lo) :: names with hnames1
    have hopen : handleOnChange path no lo names stack = .ok (names1, B :: stack) := by
      by_cases hno : no = ""
      · simp [handleOnChange, hno, hB, hnames1]
      · have hlook : List.lookup no names = none :=
          hfresh' no (Or.inr (Or.inr ⟨hno, rfl⟩))
        simp [handleOnChange, hno, hlook, hB, hnames1]
    have hlk1 : ∀ n : String, (List.lookup n names1).isSome ↔
        (no ≠ "" ∧ n = no) ∨ (List.lookup n names).isSome := by
      intro n
      by_cases hno : no = ""
      · simp [hnames1, hno]
      · rw [hnames1, if_neg hno, lookup_cons_string]
        by_cases hn' : n = no <;> simp [hn', hno]
    -- Step 2: the inner sequence runs with the new block on the stack.
    have hfreshI : ∀ n ∈ namedOpens inner, List.lookup n names1 = none := by
      intro n hmem
      rw [← Option.not_isSome_iff_eq_none, hlk1]
      rintro (⟨hno, rfl⟩ | hsome)
      · exact (hnoNotIn hno).1 hmem
      · rw [Option.isSome_iff_ne_none] at hsome
        exact hsome (hfresh' n (Or.inl hmem))
    obtain ⟨nbI, names2, heqI, hclI, hltI, hlkI⟩ :=
      ihinner names1 (B :: stack) blocks hallI hndI hfreshI hpwI
    -- Step 3: the close marker pops and completes the open block.
    obtain ⟨tc, htc⟩ : ∃ tc, buildThenChange path existsF nc lc = .ok tc := by
      cases h' : buildThenChange path existsF nc lc with
      | ok tc => exact ⟨tc, rfl⟩
      | error e => rw [h'] at hallC; simp [Except.isOk, Except.toBool] at hallC
    set B' : OnChangeBlock := { B with endLine := lc, thenChange := tc } with hB'
    have hclose : handleThenChange path existsF nc lc (B :: stack) =
        .ok (B', stack) := by
      simp [handleThenChange, htc, hB']
    -- Step 4: the rest of the sequence runs with the original stack.
    have hfreshR : ∀ n ∈ namedOpens rest, List.lookup n names2 = none := by
      intro n hmem
      rw [← Option.not_isSome_iff_eq_none, hlkI, hlk1]
      rintro (hin | ⟨hno, rfl⟩ | hsome)
      · exact hdisjIR hin hmem
      · exact (hnoNotIn hno).2 hmem
      · rw [Option.isSome_iff_ne_none] at hsome
        exact hsome (hfresh' n (Or.inr (Or.inl hmem)))
    obtain ⟨nbR, names3, heqR, hclR, hltR, hlkR⟩ :=
      ihrest names2 stack ((blocks ++ nbI) ++ [B']) hallR hndR hfreshR hpwR
    -- Assemble the loop equation.
    refine ⟨nbI ++ B' :: nbR, names3, ?_, ?_, ?_, ?_⟩
    · rw [show (MarkerEvent.onChange no lo ::
          (inner ++ MarkerEvent.thenChange nc lc :: rest)) =
          (MarkerEvent.onChange no lo :: inner) ++
            (MarkerEvent.thenChange nc lc :: rest) from by simp,
        parseLoop_append]
      have hstep1 : parseLoop path existsF
          (MarkerEvent.onChange no lo :: inner) names stack blocks =
          .ok (blocks ++ nbI, B :: stack, names2) := by
        simp only [parseLoop, hopen]
        exact heqI
      rw [hstep1]
      simp only [parseLoop, hclose]
      rw [heqR]
      simp [List.append_assoc]
    · simp only [List.map_append, List.map_cons, hclI]
      rw [closeLines_cons_onChange, closeLines_append, closeLines_cons_thenChange,
        hclR]
    · intro b hb
      rcases List.mem_append.mp hb with hbI | hbCR
      · exact hltI b hbI
      · rcases List.mem_cons.mp hbCR with rfl | hbR
        · simpa [hB', hB] using hlolc
        · exact hltR b hbR
    · intro n
      rw [hlkR, hlkI, hlk1]
      rw [namedOpens_cons_onChange, namedOpens_append,
        namedOpens_cons_thenChange]
      by_cases hno : no = "" <;> simp [hno] <;> tauto

/-- The close lines of an event list form a sublist of all its lines. -/
theorem closeLines_sublist_lines (evs : List MarkerEvent) :
    List.Sublist (closeLines evs) (evs.map MarkerEvent.line) := by
  induction evs with
  | nil => simp [closeLines_nil]
  | cons hd tl ih =>
    cases hd with
    | onChange r l =>
      rw [closeLines_cons_onChange, List.map_cons]
      exact ih.cons _
    | thenChange r l =>
      rw [closeLines_cons_thenChange, List.map_cons]
      exact ih.cons₂ _

/-! ## C3: balanced nesting -/

/-- C3: for an input whose markers form properly nested
`OnChange`/`ThenChange` pairs (each on its own line, names distinct,
every close's target string parsing successfully), the scanner succeeds
and returns exactly one block per pair, each with
`start_line < end_line`, and the internal LIFO block stack is empty at
end of file. -/
theorem scanner_balanced_nesting (path : FsPath) (existsF : FsPath → Bool)
    (evs : List MarkerEvent) (hnested : Nested evs)
    (hok : allTargetsOk path existsF evs = true)
    (hnames : (namedOpens evs).Nodup)
    (hlines : (evs.map MarkerEvent.line).Chain' (· < ·)) :
    ∃ (bs : List OnChangeBlock) (names' : List (String × Nat)),
      parseLoop path existsF evs [] [] [] = .ok (bs, [], names') ∧
      parseInternal path existsF evs = .ok bs ∧
      bs.length = closeCount evs ∧
      ∀ b ∈ bs, b.startLine < b.endLine := by
  have hpw : (evs.map MarkerEvent.line).Pairwise (· < ·) :=
    List.chain'_iff_pairwise.mp hlines
  obtain ⟨nb, names', heq, hcl, hlt, _⟩ :=
    parseLoop_nested path existsF hnested [] [] [] hok hnames
      (fun n _ => rfl) hpw
  have heq' : parseLoop path existsF evs [] [] [] = .ok (nb, [], names') := by
    simpa using heq
  refine ⟨nb, names', heq', ?_, ?_, hlt⟩
  · simp only [parseInternal, heq']
  · rw [closeCount, ← hcl, List.length_map]

/-- C3 witness: two properly nested pairs (a named outer block on lines
1-4, an unnamed inner block on lines 2-3) scan to exactly two blocks
with ascending line ranges and an empty final stack. -/
theorem scanner_balanced_nesting_witness :
    ∃ (bs : List OnChangeBlock) (names' : List (String × Nat)),
      parseLoop fileD noFs
        [.onChange "a" 1, .onChange "" 2, .thenChange "" 3, .thenChange "" 4]
        [] [] [] = .ok (bs, [], names') ∧
      parseInternal fileD noFs
        [.onChange "a" 1, .onChange "" 2, .thenChange "" 3, .thenChange "" 4]
        = .ok bs ∧
      bs.length = closeCount
        [.onChange "a" 1, .onChange "" 2, .thenChange "" 3, .thenChange "" 4] ∧
      ∀ b ∈ bs, b.startLine < b.endLine :=
  scanner_balanced_nesting fileD noFs
    [.onChange "a" 1, .onChange "" 2, .thenChange "" 3, .thenChange "" 4]
    (Nested.pair "a" "" 1 4 [.onChange "" 2, .thenChange "" 3] []
      (Nested.pair "" "" 2 3 [] [] Nested.nil Nested.nil) Nested.nil)
    (by decide) (by decide) (by rw [List.chain'_iff_pairwise]; decide)

/-! ## C8: unclosed-block detection -/

/-- C8: an input with an `OnChange` marker that has no matching
`ThenChange` before end of file (balanced markers before it, balanced
markers after it) always fails with the unclosed-block error naming
that block (its name, or `<unnamed>`) and its correct start line. -/
theorem scanner_unclosed_block (path : FsPath) (existsF : FsPath → Bool)
    (pre post : List MarkerEvent) (no : String) (lo : Nat)
    (hpre : Nested pre) (hpost : Nested post)
    (hok : allTargetsOk path existsF
      (pre ++ MarkerEvent.onChange no lo :: post) = true)
    (hnames : (namedOpens (pre ++ MarkerEvent.onChange no lo :: post)).Nodup)
    (hlines : ((pre ++ MarkerEvent.onChange no lo :: post).map
      MarkerEvent.line).Chain' (· < ·)) :
    parseInternal path existsF (pre ++ MarkerEvent.onChange no lo :: post) =
      .error (.unclosedBlock path (if no = "" then "<unnamed>" else no) lo) := by
  have hpw : (((pre ++ MarkerEvent.onChange no lo :: post)).map
      MarkerEvent.line).Pairwise (· < ·) :=
    List.chain'_iff_pairwise.mp hlines
  rw [List.map_append, List.map_cons] at hpw
  have hpwPre := (List.pairwise_append.mp hpw).1
  have hpwPost := (List.pairwise_cons.mp (List.pairwise_append.mp hpw).2.1).2
  have hokPre : allTargetsOk path existsF pre = true := by
    simp only [allTargetsOk, List.all_append, List.all_cons,
      Bool.and_eq_true] at hok
    exact hok.1
  have hokPost : allTargetsOk path existsF post = true := by
    simp only [allTargetsOk, List.all_append, List.all_cons,
      Bool.and_eq_true] at hok
    exact hok.2.2
  rw [namedOpens_append, namedOpens_cons_onChange] at hnames
  have hfacts : (namedOpens pre).Nodup ∧ (namedOpens post).Nodup ∧
      (namedOpens pre).Disjoint (namedOpens post) ∧
      (no ≠ "" → no ∉ namedOpens pre ∧ no ∉ namedOpens post) := by
    by_cases hno : no = ""
    · rw [if_pos hno] at hnames
      obtain ⟨h1, h2, h3⟩ := List.nodup_append.mp hnames
      exact ⟨h1, h2, h3, fun hc => absurd hno hc⟩
    · rw [if_neg hno] at hnames
      obtain ⟨h1, h2, h3⟩ := List.nodup_append.mp hnames
      refine ⟨h1, (List.nodup_cons.mp h2).2, ?_, fun _ => ⟨?_, ?_⟩⟩
      · intro a ha hb
        exact h3 ha (List.mem_cons_of_mem _ hb)
      · intro hc
        exact h3 hc (List.mem_cons_self _ _)
      · intro hc
        exact (List.nodup_cons.mp h2).1 hc
  obtain ⟨hndPre, hndPost, hdisj, hnoNotIn⟩ := hfacts
  obtain ⟨nbP, names1, heqP, _, _, hlkP⟩ :=
    parseLoop_nested path existsF hpre [] [] [] hokPre hndPre
      (fun n _ => rfl) hpwPre
  have heqP' : parseLoop path existsF pre [] [] [] =
      .ok (nbP, [], names1) := by simpa using heqP
  set B : OnChangeBlock :=
    { file := path, name := if no = "" then none else some no,
      startLine := lo, endLine := 0, thenChange := .unset } with hB
  set names2 : List (String × Nat) :=
    if no = "" then names1 else (no, lo) :: names1 with hnames2
  have hopen : handleOnChange path no lo names1 [] = .ok (names2, [B]) := by
    by_cases hno : no = ""
    · simp [handleOnChange, hno, hB, hnames2]
    · have hlook : List.lookup no names1 = none := by
        rw [← Option.not_isSome_iff_eq_none, hlkP]
        rintro (hin | hsome)
        · exact (hnoNotIn hno).1 hin
        · simp [List.lookup] at hsome
      simp [handleOnChange, hno, hlook, hB, hnames2]
  have hfreshPost : ∀ n ∈ namedOpens post, List.lookup n names2 = none := by
    intro n hmem
    have hnPre : List.lookup n names1 = none := by
      rw [← Option.not_isSome_iff_eq_none, hlkP]
      rintro (hin | hsome)
      · exact hdisj hin hmem
      · simp [List.lookup] at hsome
    by_cases hno : no = ""
    · rw [hnames2, if_pos hno]
      exact hnPre
    · rw [hnames2, if_neg hno, lookup_cons_string,
        if_neg (fun hc : n = no => (hnoNotIn hno).2 (hc ▸ hmem))]
      exact hnPre
  obtain ⟨nbQ, names3, heqQ, _, _, _⟩ :=
    parseLoop_nested path existsF hpost names2 [B] nbP hokPost hndPost
      hfreshPost hpwPost
  simp only [parseInternal]
  rw [parseLoop_append, heqP']
  simp only [parseLoop, hopen]
  rw [heqQ]
  have hname : B.nameStr = if no = "" then "<unnamed>" else no := by
    by_cases hno : no = "" <;> simp [hB, OnChangeBlock.nameStr, hno]
  simp [hname]

/-- C8 witness: an unmatched `OnChange(x)` on line 1 followed by a
balanced unnamed pair fails with the unclosed-block error naming block
`x` and start line 1. -/
theorem scanner_unclosed_block_witness :
    parseInternal fileD noFs
      ([] ++ MarkerEvent.onChange "x" 1 ::
        [.onChange "" 2, .thenChange "" 3]) =
      .error (.unclosedBlock fileD "x" 1) := by
  have h := scanner_unclosed_block fileD noFs []
    [.onChange "" 2, .thenChange "" 3] "x" 1 Nested.nil
    (Nested.pair "" "" 2 3 [] [] Nested.nil Nested.nil)
    (by decide) (by decide) (by rw [List.chain'_iff_pairwise]; decide)
  simpa using h

/-! ## C9: output order of the scanner -/

/-- C9 counterexample: for the nested input `OnChange(A)@1,
OnChange(B)@2, ThenChange()@3, ThenChange()@4` the scanner returns the
blocks in close order — start lines `[2, 1]` — so the returned list is
not in ascending start-line (hence not ascending byte-offset) order
when blocks are nested. -/
theorem scanner_source_order_cex :
    (parseInternal fileD noFs
      [.onChange "A" 1, .onChange "B" 2, .thenChange "" 3, .thenChange "" 4]).map
        (fun bs => bs.map OnChangeBlock.startLine) = .ok [2, 1] ∧
    ¬ ([2, 1].Pairwise (· ≤ ·)) :=
  ⟨rfl, by decide⟩

/-- C9 amended: the scanner returns blocks in the order their closing
markers appear: the returned end lines are exactly the `ThenChange`
lines in source order, hence strictly ascending; start lines ascend
only in the absence of nesting. -/
theorem scanner_close_order (path : FsPath) (existsF : FsPath → Bool)
    (evs : List MarkerEvent) (hnested : Nested evs)
    (hok : allTargetsOk path existsF evs = true)
    (hnames : (namedOpens evs).Nodup)
    (hlines : (evs.map MarkerEvent.line).Chain' (· < ·)) :
    ∃ bs : List OnChangeBlock,
      parseInternal path existsF evs = .ok bs ∧
      bs.map OnChangeBlock.endLine = closeLines evs ∧
      (bs.map OnChangeBlock.endLine).Pairwise (· < ·) := by
  have hpw : (evs.map MarkerEvent.line).Pairwise (· < ·) :=
    List.chain'_iff_pairwise.mp hlines
  obtain ⟨nb, names', heq, hcl, _, _⟩ :=
    parseLoop_nested path existsF hnested [] [] [] hok hnames
      (fun n _ => rfl) hpw
  have heq' : parseLoop path existsF evs [] [] [] = .ok (nb, [], names') := by
    simpa using heq
  refine ⟨nb, ?_, hcl, ?_⟩
  · simp only [parseInternal, heq']
  · rw [hcl]
    exact hpw.sublist (closeLines_sublist_lines evs)

/-- C9 witness for the amended claim: the nested input closes the inner
block on line 3 and the outer on line 4; the returned end lines are
`[3, 4]`, ascending. -/
theorem scanner_close_order_witness :
    ∃ bs : List OnChangeBlock,
      parseInternal fileD noFs
        [.onChange "a" 1, .onChange "b" 2, .thenChange "" 3, .thenChange "" 4]
        = .ok bs ∧
      bs.map OnChangeBlock.endLine = closeLines
        [.onChange "a" 1, .onChange "b" 2, .thenChange "" 3, .thenChange "" 4] ∧
      (bs.map OnChangeBlock.endLine).Pairwise (· < ·) :=
  scanner_close_order fileD noFs
    [.onChange "a" 1, .onChange "b" 2, .thenChange "" 3, .thenChange "" 4]
    (Nested.pair "a" "" 1 4 [.onChange "b" 2, .thenChange "" 3] []
      (Nested.pair "b" "" 2 3 [] [] Nested.nil Nested.nil) Nested.nil)
    (by decide) (by decide) (by rw [List.chain'_iff_pairwise]; decide)

/-! ## Helper lemmas for structural validation -/

theorem validateTargets_ok_iff (p : Parser) (path : FsPath)
    (b : OnChangeBlock) :
    ∀ ts : List ThenChangeTarget,
      p.validateTargets path b ts = .ok () ↔
      ∀ t ∈ ts,
        (∀ fp, t = .file fp → p.containsFile fp = true) ∧
        (∀ tb fOpt, t = .block tb fOpt →
          (fOpt.getD path, tb) ∈ p.targetableKeys) := by
  intro ts
  induction ts with
  | nil => simp [Parser.validateTargets]
  | cons t ts ih =>
    cases t with
    | file f =>
      by_cases hc : p.containsFile f = true
      · rw [show p.validateTargets path b (ThenChangeTarget.file f :: ts) =
            p.validateTargets path b ts from by
              simp [Parser.validateTargets, Parser.validateBlockTarget, hc]]
        rw [ih]
        constructor
        · intro h
          intro t ht
          rcases List.mem_cons.mp ht with rfl | ht'
          · exact ⟨fun fp hfp => by injection hfp with h'; exact h' ▸ hc,
              fun tb fOpt h' => by cases h'⟩
          · exact h t ht'
        · intro h t ht
          exact h t (List.mem_cons_of_mem _ ht)
      · rw [show p.validateTargets path b (ThenChangeTarget.file f :: ts) =
            .error (.fileTargetMissing b.nameStr path b.endLine f) from by
              simp [Parser.validateTargets, Parser.validateBlockTarget, hc]]
        constructor
        · intro h; cases h
        · intro h
          exact absurd ((h _ (List.mem_cons_self _ _)).1 f rfl) hc
    | block tb fOpt =>
      by_cases hm : (fOpt.getD path, tb) ∈ p.targetableKeys
      · rw [show p.validateTargets path b (ThenChangeTarget.block tb fOpt :: ts) =
            p.validateTargets path b ts from by
              simp [Parser.validateTargets, Parser.validateBlockTarget, hm]]
        rw [ih]
        constructor
        · intro h t ht
          rcases List.mem_cons.mp ht with rfl | ht'
          · refine ⟨(fun fp hfp => nomatch hfp), fun tb' fOpt' h' => ?_⟩
            injection h' with h1 h2
            exact h1 ▸ h2 ▸ hm
          · exact h t ht'
        · intro h t ht
          exact h t (List.mem_cons_of_mem _ ht)
      · rw [show p.validateTargets path b (ThenChangeTarget.block tb fOpt :: ts) =
            .error (.blockTargetMissing b.nameStr path b.endLine
              (fOpt.getD path) tb) from by
              simp [Parser.validateTargets, Parser.validateBlockTarget, hm]]
        constructor
        · intro h; cases h
        · intro h
          exact absurd ((h _ (List.mem_cons_self _ _)).2 tb fOpt rfl) hm

theorem validateBlocks_ok_iff (p : Parser) (path : FsPath) :
    ∀ bs : List OnChangeBlock,
      p.validateBlocks path bs = .ok () ↔
      ∀ b ∈ bs,
        b.thenChange ≠ .unset ∧
        (∀ ts, b.thenChange = .targets ts → ∀ t ∈ ts,
          (∀ fp, t = .file fp → p.containsFile fp = true) ∧
          (∀ tb fOpt, t = .block tb fOpt →
            (fOpt.getD path, tb) ∈ p.targetableKeys)) := by
  intro bs
  induction bs with
  | nil => simp [Parser.validateBlocks]
  | cons b bs ih =>
    cases htc : b.thenChange with
    | unset =>
      rw [show p.validateBlocks path (b :: bs) =
          .error (.unsetTarget b.nameStr path b.endLine) from by
            simp [Parser.validateBlocks, htc]]
      constructor
      · intro h; cases h
      · intro h
        exact absurd htc (h b (List.mem_cons_self _ _)).1
    | noTarget =>
      rw [show p.validateBlocks path (b :: bs) = p.validateBlocks path bs from by
        simp [Parser.validateBlocks, htc]]
      rw [ih]
      constructor
      · intro h b' hb'
        rcases List.mem_cons.mp hb' with rfl | hb''
        · exact ⟨by simp [htc], fun ts hts => by rw [htc] at hts; cases hts⟩
        · exact h b' hb''
      · intro h b' hb'
        exact h b' (List.mem_cons_of_mem _ hb')
    | targets ts =>
      by_cases hv : p.validateTargets path b ts = .ok ()
      · rw [show p.validateBlocks path (b :: bs) = p.validateBlocks path bs from by
          simp [Parser.validateBlocks, htc, hv]]
        rw [ih]
        constructor
        · intro h b' hb'
          rcases List.mem_cons.mp hb' with rfl | hb''
          · refine ⟨by simp [htc], fun ts' hts' => ?_⟩
            rw [htc] at hts'
            injection hts' with h'
            exact h' ▸ (validateTargets_ok_iff p path b' ts).mp hv
          · exact h b' hb''
        · intro h b' hb'
          exact h b' (List.mem_cons_of_mem _ hb')
      · have hne : p.validateBlocks path (b :: bs) ≠ .ok () := by
          simp only [Parser.validateBlocks, htc]
          cases hvv : p.validateTargets path b ts with
          | ok u => cases u; exact absurd hvv hv
          | error e => simp
        constructor
        · intro h; exact absurd h hne
        · intro h
          exact absurd ((validateTargets_ok_iff p path b ts).mpr
            (((h b (List.mem_cons_self _ _)).2) ts htc)) hv

theorem validateFiles_ok_iff (p : Parser) :
    ∀ fs : List PFile,
      p.validateFiles fs = .ok () ↔
      ∀ f ∈ fs, p.validateBlocks f.path f.blocks = .ok () := by
  intro fs
  induction fs with
  | nil => simp [Parser.validateFiles]
  | cons f fs ih =>
    by_cases hv : p.validateBlocks f.path f.blocks = .ok ()
    · rw [show p.validateFiles (f :: fs) = p.validateFiles fs from by
        simp [Parser.validateFiles, hv]]
      rw [ih]
      constructor
      · intro h f' hf'
        rcases List.mem_cons.mp hf' with rfl | hf''
        · exact hv
        · exact h f' hf''
      · intro h f' hf'
        exact h f' (List.mem_cons_of_mem _ hf')
    · have hne : p.validateFiles (f :: fs) ≠ .ok () := by
        simp only [Parser.validateFiles]
        cases hvv : p.validateBlocks f.path f.blocks with
        | ok u => cases u; exact absurd hvv hv
        | error e => simp
      constructor
      · intro h; exact absurd h hne
      · intro h
        exact absurd (h f (List.mem_cons_self _ _)) hv

/-! ## C4: structural validation is exhaustive -/

/-- C4: `Parser::validate` (the gate through which `from_files` and
`from_directory` must pass before returning successfully,
src/parser.rs:187,259) succeeds exactly when every block of every file
has `then_change` different from `Unset`, every `Block` target resolves
to an existing targetable block key, and every `File` target names a
file present in the map; any miss, or any block left `Unset`, makes it
fail with a hard error carrying the offending block's name, file and
end line and the missing target. -/
theorem parserValidate_ok_iff (p : Parser) :
    p.validate = .ok () ↔
      ∀ f ∈ p.files, ∀ b ∈ f.blocks,
        b.thenChange ≠ .unset ∧
        (∀ ts, b.thenChange = .targets ts → ∀ t ∈ ts,
          (∀ fp, t = .file fp → p.containsFile fp = true) ∧
          (∀ tb fOpt, t = .block tb fOpt →
            (fOpt.getD f.path, tb) ∈ p.targetableKeys)) := by
  rw [Parser.validate, validateFiles_ok_iff]
  constructor
  · intro h f hf
    exact (validateBlocks_ok_iff p f.path f.blocks).mp (h f hf)
  · intro h f hf
    exact (validateBlocks_ok_iff p f.path f.blocks).mpr (h f hf)

/-! ## Helper lemmas for change validation -/

theorem targetsLoop_length (p : Parser) (fc : List FsPath)
    (tc : List (FsPath × String)) (b : OnChangeBlock) :
    ∀ (keys : List (FsPath × Option String)) (vs : List OnChangeViolation),
      p.targetsLoop fc tc b keys = some vs →
      vs.length = (keys.filter (fun k =>
        match k with
        | (f, some n) => decide ((f, n) ∉ tc)
        | (f, none) => decide (f ∉ fc))).length := by
  intro keys
  induction keys with
  | nil =>
    intro vs h
    simp only [Parser.targetsLoop, Option.some.injEq] at h
    simp [← h]
  | cons k rest ih =>
    intro vs h
    rcases k with ⟨f, n?⟩
    cases n? with
    | some n =>
      by_cases hm : (f, n) ∈ tc
      · rw [show p.targetsLoop fc tc b ((f, some n) :: rest) =
            p.targetsLoop fc tc b rest from by
              simp [Parser.targetsLoop, hm]] at h
        rw [ih vs h]
        simp [hm]
      · cases hgb : p.getBlockInFile f n with
        | none =>
          rw [show p.targetsLoop fc tc b ((f, some n) :: rest) = none from by
            simp [Parser.targetsLoop, hm, hgb]] at h
          cases h
        | some tb =>
          have hstep : p.targetsLoop fc tc b ((f, some n) :: rest) =
              (p.targetsLoop fc tc b rest).map
                (fun vs => (⟨b, f, some tb⟩ : OnChangeViolation) :: vs) := by
            simp [Parser.targetsLoop, hm, hgb]
          rw [hstep] at h
          rcases Option.map_eq_some'.mp h with ⟨vs', hvs', rfl⟩
          rw [List.length_cons, ih vs' hvs']
          simp [hm]
    | none =>
      by_cases hm : f ∈ fc
      · rw [show p.targetsLoop fc tc b ((f, none) :: rest) =
            p.targetsLoop fc tc b rest from by
              simp [Parser.targetsLoop, hm]] at h
        rw [ih vs h]
        simp [hm]
      · have hstep : p.targetsLoop fc tc b ((f, none) :: rest) =
            (p.targetsLoop fc tc b rest).map
              (fun vs => (⟨b, f, none⟩ : OnChangeViolation) :: vs) := by
          simp [Parser.targetsLoop, hm]
        rw [hstep] at h
        rcases Option.map_eq_some'.mp h with ⟨vs', hvs', rfl⟩
        rw [List.length_cons, ih vs' hvs']
        simp [hm]

theorem blocksLoop_length (p : Parser) (fc : List FsPath)
    (tc : List (FsPath × String)) :
    ∀ (bs : List OnChangeBlock) (vs : List OnChangeViolation),
      p.blocksLoop fc tc bs = some vs →
      vs.length = (bs.map (unmetCount fc tc)).sum := by
  intro bs
  induction bs with
  | nil =>
    intro vs h
    simp only [Parser.blocksLoop, Option.some.injEq] at h
    simp [← h]
  | cons b bs ih =>
    intro vs h
    simp only [Parser.blocksLoop] at h
    cases ht : p.targetsLoop fc tc b b.getThenChangeTargetsAsKeys with
    | none => rw [ht] at h; cases h
    | some vsb =>
      rw [ht] at h
      rcases Option.map_eq_some'.mp h with ⟨vs', hvs', rfl⟩
      rw [List.length_append, ih vs' hvs', List.map_cons, List.sum_cons,
        targetsLoop_length p fc tc b _ vsb ht]
      rfl

/-! ## C2: violation counting and full accumulation -/

/-- C2: whenever `validate_changed_files_and_blocks` returns (no target
lookup panics), the returned violation list has exactly one entry per
unmet target of each changed block — `m` violations for a block with
`m` unmet targets — summed over all changed blocks: nothing aborts
early and all violations are accumulated and returned together. -/
theorem changeValidation_counts (p : Parser) (filesChanged : List FsPath)
    (blocksChanged : List OnChangeBlock)
    (targetableChanged : List (FsPath × String))
    (vs : List OnChangeViolation)
    (h : p.validateChangedFilesAndBlocks filesChanged blocksChanged
      targetableChanged = some vs) :
    vs.length =
      (blocksChanged.map (unmetCount filesChanged targetableChanged)).sum :=
  blocksLoop_length p filesChanged targetableChanged blocksChanged vs h

/-- C2 witness: the block of `f3.txt` declares three targets
(`f1.txt:default`, `f2.txt:potato`, `f4.txt:something`); only
`f2.txt:potato` changed, and validation returns exactly 2 violations
(one per unmet target). -/
theorem changeValidation_counts_witness :
    parserW.validateChangedFilesAndBlocks [fP3, fP2] [blkMulti]
        [(fP2, "potato")] =
      some [{ block := blkMulti, targetFile := fP1,
              targetBlock := some blkDefault },
            { block := blkMulti, targetFile := fP4,
              targetBlock := some blkSomething }] ∧
    ([{ block := blkMulti, targetFile := fP1, targetBlock := some blkDefault },
      { block := blkMulti, targetFile := fP4,
        targetBlock := some blkSomething }] :
        List OnChangeViolation).length =
      ([blkMulti].map (unmetCount [fP3, fP2] [(fP2, "potato")])).sum ∧
    ([blkMulti].map (unmetCount [fP3, fP2] [(fP2, "potato")])).sum = 2 :=
  ⟨by decide,
   changeValidation_counts parserW [fP3, fP2] [blkMulti] [(fP2, "potato")] _
     (by decide),
   by decide⟩

/-! ## Helper lemmas for the panic-freedom claim -/

theorem mem_targetableKeys_iff (p : Parser) (tf : FsPath) (tn : String) :
    (tf, tn) ∈ p.targetableKeys ↔
      ∃ pf ∈ p.files, pf.path = tf ∧
        ∃ b ∈ pf.blocks, b.isTargetable = true ∧ b.nameStr = tn := by
  simp only [Parser.targetableKeys, List.mem_flatMap, List.mem_map,
    List.mem_filter, Prod.mk.injEq]
  constructor
  · rintro ⟨pf, hpf, b, ⟨hb, htgt⟩, hpath, hname⟩
    exact ⟨pf, hpf, hpath, b, hb, htgt, hname⟩
  · rintro ⟨pf, hpf, hpath, b, hb, htgt, hname⟩
    exact ⟨pf, hpf, b, ⟨hb, htgt⟩, hpath, hname⟩

theorem find?_path_of_nodup :
    ∀ l : List PFile, (l.map PFile.path).Nodup →
      ∀ pf ∈ l, l.find? (fun f => decide (f.path = pf.path)) = some pf := by
  intro l
  induction l with
  | nil => intro _ pf h; cases h
  | cons g t ih =>
    intro hnd pf hpf
    rw [List.map_cons, List.nodup_cons] at hnd
    rcases List.mem_cons.mp hpf with rfl | hmem
    · simp [List.find?]
    · have hne : ¬ (g.path = pf.path) := by
        intro hc
        exact hnd.1 (hc ▸ List.mem_map_of_mem PFile.path hmem)
      rw [List.find?_cons_of_neg _ (by simpa using hne)]
      exact ih hnd.2 pf hmem

theorem getBlockInFile_isSome_of_targetable (p : Parser)
    (hnodup : (p.files.map PFile.path).Nodup) (tf : FsPath) (tn : String)
    (hmem : (tf, tn) ∈ p.targetableKeys) :
    (p.getBlockInFile tf tn).isSome = true := by
  rw [mem_targetableKeys_iff] at hmem
  obtain ⟨pf, hpf, rfl, b, hb, _, hname⟩ := hmem
  rw [Parser.getBlockInFile,
    show p.getFile pf.path = some pf from find?_path_of_nodup p.files hnodup pf hpf]
  simp only [Option.some_bind]
  exact List.find?_isSome.mpr ⟨b, hb, by simp [hname]⟩

theorem mem_targets_of_mem_keys (b : OnChangeBlock) (tf : FsPath) (tn : String)
    (hkey : (tf, some tn) ∈ b.getThenChangeTargetsAsKeys) :
    ∃ ts, b.thenChange = .targets ts ∧
      ∃ fOpt, ThenChangeTarget.block tn fOpt ∈ ts ∧ tf = fOpt.getD b.file := by
  cases htc : b.thenChange with
  | unset => rw [OnChangeBlock.getThenChangeTargetsAsKeys, htc] at hkey; cases hkey
  | noTarget => rw [OnChangeBlock.getThenChangeTargetsAsKeys, htc] at hkey; cases hkey
  | targets ts =>
    rw [OnChangeBlock.getThenChangeTargetsAsKeys, htc] at hkey
    rcases List.mem_map.mp hkey with ⟨t, ht, heq⟩
    cases t with
    | file f => simp [ThenChangeTarget.fileOf, ThenChangeTarget.blockOf] at heq
    | block n' fOpt =>
      simp only [ThenChangeTarget.fileOf, ThenChangeTarget.blockOf,
        Prod.mk.injEq, Option.some.injEq] at heq
      exact ⟨ts, rfl, fOpt, heq.2 ▸ ht, heq.1.symm⟩

theorem targetsLoop_isSome (p : Parser) (fc : List FsPath)
    (tc : List (FsPath × String)) (b : OnChangeBlock) :
    ∀ keys : List (FsPath × Option String),
      (∀ f n, (f, some n) ∈ keys → (p.getBlockInFile f n).isSome = true) →
      (p.targetsLoop fc tc b keys).isSome = true := by
  intro keys
  induction keys with
  | nil => intro _; simp [Parser.targetsLoop]
  | cons k rest ih =>
    intro h
    rcases k with ⟨f, n?⟩
    cases n? with
    | some n =>
      by_cases hm : (f, n) ∈ tc
      · rw [show p.targetsLoop fc tc b ((f, some n) :: rest) =
            p.targetsLoop fc tc b rest from by simp [Parser.targetsLoop, hm]]
        exact ih (fun f' n' h' => h f' n' (List.mem_cons_of_mem _ h'))
      · cases hgb : p.getBlockInFile f n with
        | none =>
          have := h f n (List.mem_cons_self _ _)
          rw [hgb] at this
          cases this
        | some tb =>
          have hstep : p.targetsLoop fc tc b ((f, some n) :: rest) =
              (p.targetsLoop fc tc b rest).map
                (fun vs => (⟨b, f, some tb⟩ : OnChangeViolation) :: vs) := by
            simp [Parser.targetsLoop, hm, hgb]
          rw [hstep, Option.isSome_map']
          exact ih (fun f' n' h' => h f' n' (List.mem_cons_of_mem _ h'))
    | none =>
      by_cases hm : f ∈ fc
      · rw [show p.targetsLoop fc tc b ((f, none) :: rest) =
            p.targetsLoop fc tc b rest from by simp [Parser.targetsLoop, hm]]
        exact ih (fun f' n' h' => h f' n' (List.mem_cons_of_mem _ h'))
      · have hstep : p.targetsLoop fc tc b ((f, none) :: rest) =
            (p.targetsLoop fc tc b rest).map
              (fun vs => (⟨b, f, none⟩ : OnChangeViolation) :: vs) := by
          simp [Parser.targetsLoop, hm]
        rw [hstep, Option.isSome_map']
        exact ih (fun f' n' h' => h f' n' (List.mem_cons_of_mem _ h'))

theorem blocksLoop_isSome (p : Parser) (fc : List FsPath)
    (tc : List (FsPath × String)) :
    ∀ bs : List OnChangeBlock,
      (∀ b ∈ bs, ∀ f n, (f, some n) ∈ b.getThenChangeTargetsAsKeys →
        (p.getBlockInFile f n).isSome = true) →
      (p.blocksLoop fc tc bs).isSome = true := by
  intro bs
  induction bs with
  | nil => intro _; simp [Parser.blocksLoop]
  | cons b bs ih =>
    intro h
    have hb := targetsLoop_isSome p fc tc b b.getThenChangeTargetsAsKeys
      (h b (List.mem_cons_self _ _))
    cases ht : p.targetsLoop fc tc b b.getThenChangeTargetsAsKeys with
    | none => rw [ht] at hb; cases hb
    | some vsb =>
      rw [show p.blocksLoop fc tc (b :: bs) =
          (p.blocksLoop fc tc bs).map (fun vs' => vsb ++ vs') from by
            simp [Parser.blocksLoop, ht]]
      rw [Option.isSome_map']
      exact ih (fun b' hb' => h b' (List.mem_cons_of_mem _ hb'))

/-! ## C10: change validation never panics after structural validation -/

/-- C10: if the parser passed structural validation (`validate` returned
`Ok` on a file map with unique paths, blocks stored under their own
file), then for every changed block drawn from that map the
`expect("block should exist")` lookup in
`validate_changed_files_and_blocks` is unreachable: `get_block_in_file`
returns `Some` for every `Block` target key, so change validation
always returns a result instead of panicking. -/
theorem changeValidation_no_panic (p : Parser)
    (filesChanged : List FsPath) (targetableChanged : List (FsPath × String))
    (blocksChanged : List OnChangeBlock)
    (hnodup : (p.files.map PFile.path).Nodup)
    (hval : p.validate = .ok ())
    (hown : ∀ f ∈ p.files, ∀ b ∈ f.blocks, b.file = f.path)
    (hbc : ∀ b ∈ blocksChanged, ∃ f ∈ p.files, b ∈ f.blocks) :
    (p.validateChangedFilesAndBlocks filesChanged blocksChanged
      targetableChanged).isSome = true := by
  rw [Parser.validateChangedFilesAndBlocks]
  refine blocksLoop_isSome p filesChanged targetableChanged blocksChanged ?_
  intro b hb tf tn hkey
  obtain ⟨f, hf, hbf⟩ := hbc b hb
  obtain ⟨ts, htc, fOpt, hts, htf⟩ := mem_targets_of_mem_keys b tf tn hkey
  rw [Parser.validate, validateFiles_ok_iff] at hval
  have hblocks := (validateBlocks_ok_iff p f.path f.blocks).mp (hval f hf)
  have hkeymem : (fOpt.getD f.path, tn) ∈ p.targetableKeys :=
    ((hblocks b hbf).2 ts htc (ThenChangeTarget.block tn fOpt) hts).2 tn fOpt rfl
  have htf' : tf = fOpt.getD f.path := by
    rw [htf, hown f hf b hbf]
  exact htf' ▸ getBlockInFile_isSome_of_targetable p hnodup _ tn hkeymem

/-- C10 witness: a validated two-file parser (`a` in `f1.txt` targets
`b` in `f2.txt`); validating a change to block `a` with nothing else
changed returns a violation list (no panic). -/
theorem changeValidation_no_panic_witness :
    (parserV.validateChangedFilesAndBlocks [] [blkA] []).isSome = true :=
  changeValidation_no_panic parserV [] [] [blkA]
    (by decide) (by rfl) (by decide) (by decide)

end Onchg
